import Mathlib

/-!
Verification of the per-user CPU usage monitor (`Task2A/monitor.c`).

The sampling engine is embedded shallowly: the global tables `pid_slots`,
`user_table` and `hz` become a `MonState`; one iteration of the `readdir`
loop in `do_sample` becomes `step`; a whole `/proc` walk becomes `do_sample`
(a fold of `step`); the OS reads (`read_proc_stat`, `read_proc_uid`) and
`getpwuid` are abstracted into the observation record `ProcObs` and a
`resolve` parameter, since they are external collaborators.  Machine
integers (`long long`, `int`) are modelled as `Int`/`Nat`; all divisions in
the source act on non-negative operands, where C truncating division agrees
with Lean's `Int` division.
-/

namespace Monitor

/-- `#define PID_MAX 65536` -/
def PID_MAX : Nat := 65536

/-- `#define MAX_USERS 4096` -/
def MAX_USERS : Nat := 4096

/-- `(uid_t)-1`, the error sentinel returned by `read_proc_uid`
(`uid_t` is a 32-bit unsigned integer). -/
def UID_ERR : Nat := 4294967295

/-- The C struct `PidSlot`: per-PID state kept between samples. -/
structure PidSlot where
  active : Bool
  uid : Nat
  prev_jiffies : Int
deriving DecidableEq

/-- The C struct `UserEntry`: per-user accumulator. -/
structure UserEntry where
  uid : Nat
  cpu_ms : Int
  name : String
deriving DecidableEq

/-- One `/proc` directory entry as the sampling loop sees it: the directory
entry name, the result of `read_proc_stat` (negative means the read failed),
and the result of `read_proc_uid` (`UID_ERR` means the `stat` call failed). -/
structure ProcObs where
  dname : List Char
  jiffies : Int
  uid : Nat
deriving DecidableEq

/-- The mutable globals of `monitor.c`: `pid_slots`, `user_table` (its
prefix of length `user_count`), and `hz`. -/
structure MonState where
  pid_slots : Nat → PidSlot
  user_table : List UserEntry
  hz : Int

/-- Static zero-initialization of a `PidSlot`. -/
def initSlot : PidSlot := ⟨false, 0, 0⟩

/-- Program start: all slots inactive, empty user table, `hz` fixed. -/
def initState (hz : Int) : MonState := ⟨fun _ => initSlot, [], hz⟩

/-- Pointwise update of the `pid_slots` array. -/
def updSlot (f : Nat → PidSlot) (p : Nat) (v : PidSlot) : Nat → PidSlot :=
  fun q => if q = p then v else f q

/-- The digit-parsing loop at the top of the `readdir` loop:
`pid = pid * 10 + (*s - '0')` over the entry name, failing (`valid = 0`)
at the first non-digit character. -/
def parsePidLoop : List Char → Nat → Option Nat
  | [], acc => some acc
  | c :: rest, acc =>
      if c.isDigit then parsePidLoop rest (acc * 10 + (c.toNat - 48)) else none

/-- The linear scan inside `find_user` when the uid is already present,
combined with the caller's `u->cpu_ms += ms`: adds `ms` to the first entry
whose uid matches. -/
def creditExisting : List UserEntry → Nat → Int → List UserEntry
  | [], _, _ => []
  | u :: rest, uid, ms =>
      if u.uid = uid then { u with cpu_ms := u.cpu_ms + ms } :: rest
      else u :: creditExisting rest uid ms

/-- `find_user(uid)` followed by the caller's `u->cpu_ms += ms` (both call
sites of `find_user` do exactly this): credit an existing entry, or append
a fresh one with `cpu_ms = 0 + ms` and a resolved name, or drop the credit
when the table is full and `find_user` returns `NULL`. -/
def credit (resolve : Nat → String) (tbl : List UserEntry) (uid : Nat) (ms : Int) :
    List UserEntry :=
  if tbl.any (fun u => u.uid == uid) then creditExisting tbl uid ms
  else if MAX_USERS ≤ tbl.length then tbl
  else tbl ++ [⟨uid, ms, resolve uid⟩]

/-- One iteration of the `readdir` loop in `do_sample`: parse the entry
name, apply the PID-range guard, skip on failed stat reads, then run the
classification on `pid_slots[pid]`. -/
def step (resolve : Nat → String) (is_baseline : Bool) (st : MonState) (e : ProcObs) :
    MonState :=
  match parsePidLoop e.dname 0 with
  | none => st
  | some pid =>
    if pid = 0 ∨ PID_MAX ≤ pid then st
    else if e.jiffies < 0 then st
    else if e.uid = UID_ERR then st
    else
      let slot := st.pid_slots pid
      if slot.active = false ∨ slot.uid ≠ e.uid then
        if is_baseline then
          { st with pid_slots := updSlot st.pid_slots pid ⟨true, e.uid, e.jiffies⟩ }
        else
          let ms := e.jiffies * 1000 / st.hz
          { st with
            user_table :=
              if 0 < ms then credit resolve st.user_table e.uid ms else st.user_table,
            pid_slots := updSlot st.pid_slots pid ⟨true, e.uid, e.jiffies⟩ }
      else if is_baseline = false then
        let d0 := e.jiffies - slot.prev_jiffies
        let delta : Int := if d0 < 0 then 0 else d0
        { st with
          user_table :=
            if 0 < delta then
              credit resolve st.user_table e.uid (delta * 1000 / st.hz)
            else st.user_table,
          pid_slots := updSlot st.pid_slots pid ⟨true, slot.uid, e.jiffies⟩ }
      else st

/-- `do_sample(is_baseline)`: one full pass over the enumerated `/proc`
entries, in enumeration order. -/
def do_sample (resolve : Nat → String) (is_baseline : Bool) (entries : List ProcObs)
    (st : MonState) : MonState :=
  entries.foldl (step resolve is_baseline) st

/-- Phase 2 of `main`: one non-baseline `do_sample` per tick. -/
def sampleTicks (resolve : Nat → String) (ticks : List (List ProcObs)) (st : MonState) :
    MonState :=
  ticks.foldl (fun s t => do_sample resolve false t s) st

/-- Phases 1 and 2 of `main`: a baseline pass from the initial state, then
the sequence of per-second sampling passes. -/
def monitorRun (resolve : Nat → String) (hz : Int) (baseline : List ProcObs)
    (ticks : List (List ProcObs)) : MonState :=
  sampleTicks resolve ticks (do_sample resolve true baseline (initState hz))

/-- Milliseconds currently attributed to `uid` in the user table
(0 when the uid has no entry). -/
def cpuOf (tbl : List UserEntry) (uid : Nat) : Int :=
  match tbl.find? (fun u => u.uid == uid) with
  | some u => u.cpu_ms
  | none => 0

/-- A single-process observation. -/
def obs1 (name : List Char) (c : Int) (uid : Nat) : ProcObs := ⟨name, c, uid⟩

/-- Tick sequence in which only one process (fixed name, fixed uid) is
enumerated, with counter value `c` on the tick for each `c` in the list. -/
def singleTicks (name : List Char) (uid : Nat) (cs : List Int) : List (List ProcObs) :=
  cs.map fun c => [obs1 name c uid]

/-- Milliseconds the known-process branch attributes on one tick:
`delta = c - prev`, clamped at zero, converted only when positive. -/
def tickMs (hz prev c : Int) : Int :=
  let d0 := c - prev
  let delta : Int := if d0 < 0 then 0 else d0
  if 0 < delta then delta * 1000 / hz else 0

/-- Total milliseconds attributed across a run of ticks with counter values
`cs`, starting from recorded value `prev`. -/
def deltaSum (hz : Int) : Int → List Int → Int
  | _, [] => 0
  | prev, c :: rest => tickMs hz prev c + deltaSum hz c rest

/-- `cmp_cpu_desc`: qsort comparator ordering entries by `cpu_ms` descending. -/
def cmp_cpu_desc (a b : UserEntry) : Int :=
  if a.cpu_ms < b.cpu_ms then 1 else if b.cpu_ms < a.cpu_ms then -1 else 0

/-- The order `qsort` establishes with `cmp_cpu_desc`: `cpu_ms` descending.
`qsort` leaves tie order unspecified; the model sorts with a deterministic
insertion sort consistent with the comparator. -/
def cpuDescOrder (a b : UserEntry) : Prop := b.cpu_ms ≤ a.cpu_ms

instance : DecidableRel cpuDescOrder := fun a b => Int.decLe b.cpu_ms a.cpu_ms

/-- Phase 3 sort: `qsort(user_table, user_count, sizeof(UserEntry), cmp_cpu_desc)`. -/
def sortDesc (tbl : List UserEntry) : List UserEntry :=
  List.insertionSort cpuDescOrder tbl

/-- The printing loop of phase 3: walk the sorted table, skip entries with
`cpu_ms <= 0`, emit `(rank, name, cpu_ms)` incrementing the rank only on
emitted rows. -/
def emitRows (rank : Nat) : List UserEntry → List (Nat × String × Int)
  | [] => []
  | u :: rest =>
      if u.cpu_ms ≤ 0 then emitRows rank rest
      else (rank, u.name, u.cpu_ms) :: emitRows (rank + 1) rest

/-- The final report: sort descending by `cpu_ms`, then emit ranked rows
starting at rank 1. -/
def report (tbl : List UserEntry) : List (Nat × String × Int) :=
  emitRows 1 (sortDesc tbl)

/-- `isspace` for the characters C's `atoi` skips. -/
def isSpaceChar (c : Char) : Bool :=
  c = ' ' ∨ c = '\t' ∨ c = '\n' ∨ c = '\x0b' ∨ c = '\x0c' ∨ c = '\r'

/-- Leading-whitespace skipping of C's `atoi`. -/
def skipSpaces : List Char → List Char
  | [] => []
  | c :: rest => if isSpaceChar c then skipSpaces rest else c :: rest

/-- The digit-consuming loop of C's `atoi`: accumulate decimal digits,
stop at the first non-digit. -/
def digitsVal : List Char → Int → Int
  | [], acc => acc
  | c :: rest, acc =>
      if c.isDigit then digitsVal rest (acc * 10 + (Int.ofNat c.toNat - 48)) else acc

/-- C's `atoi` (overflow-free model): skip whitespace, optional sign,
then a digit run; 0 when no digits follow. -/
def atoi (s : List Char) : Int :=
  match skipSpaces s with
  | [] => 0
  | c :: rest =>
      if c = '-' then - digitsVal rest 0
      else if c = '+' then digitsVal rest 0
      else digitsVal (c :: rest) 0

/-- Outcome of `main`'s startup checks: `usageError` means exit status 1
with no sampling pass performed; `run d` means the argument was accepted
and one baseline pass plus `d` sampling passes are performed. -/
inductive MainOutcome where
  | usageError : MainOutcome
  | run : Int → MainOutcome
deriving DecidableEq

/-- The argument validation in `main`: `argc != 2` or `atoi(argv[1]) <= 0`
is a usage error (exit 1, no sampling); otherwise sampling proceeds with
the parsed duration. -/
def mainModel (argv : List String) : MainOutcome :=
  match argv with
  | [_, a] => if atoi a.data ≤ 0 then .usageError else .run (atoi a.data)
  | _ => .usageError

/-- Modelled from the spec: a "valid positive integer duration" literal —
a non-empty all-digit string whose decimal value is positive.  (The spec's
invocation-surface wording; used only to compare against what `mainModel`
actually accepts.) -/
def specValidPositiveInt (s : String) : Bool :=
  !s.data.isEmpty && s.data.all Char.isDigit && decide (0 < digitsVal s.data 0)

/-! ### Basic lemmas about the user table -/

theorem cpuOf_cons (u : UserEntry) (rest : List UserEntry) (v : Nat) :
    cpuOf (u :: rest) v = if u.uid = v then u.cpu_ms else cpuOf rest v := by
  by_cases h : u.uid = v
  · simp [cpuOf, List.find?, beq_iff_eq, h]
  · have hb : (u.uid == v) = false := beq_eq_false_iff_ne.mpr h
    simp [cpuOf, List.find?, hb, h]

theorem cpuOf_eq_zero_of_absent (tbl : List UserEntry) (v : Nat)
    (h : (tbl.any fun u => u.uid == v) = false) : cpuOf tbl v = 0 := by
  induction tbl with
  | nil => rfl
  | cons u rest ih =>
    simp only [List.any_cons, Bool.or_eq_false_iff, beq_eq_false_iff_ne, ne_eq] at h
    rw [cpuOf_cons, if_neg h.1, ih h.2]

theorem cpuOf_append_one_ne (tbl : List UserEntry) (w : UserEntry) (v : Nat)
    (h : w.uid ≠ v) : cpuOf (tbl ++ [w]) v = cpuOf tbl v := by
  induction tbl with
  | nil => simp [cpuOf_cons, h]
  | cons u rest ih => simp only [List.cons_append, cpuOf_cons, ih]

theorem cpuOf_append_one_self (tbl : List UserEntry) (w : UserEntry)
    (h : (tbl.any fun u => u.uid == w.uid) = false) :
    cpuOf (tbl ++ [w]) w.uid = w.cpu_ms := by
  induction tbl with
  | nil => simp [cpuOf_cons]
  | cons u rest ih =>
    simp only [List.any_cons, Bool.or_eq_false_iff, beq_eq_false_iff_ne, ne_eq] at h
    rw [List.cons_append, cpuOf_cons, if_neg h.1, ih h.2]

theorem cpuOf_creditExisting_ne (tbl : List UserEntry) (uid v : Nat) (ms : Int)
    (h : v ≠ uid) : cpuOf (creditExisting tbl uid ms) v = cpuOf tbl v := by
  induction tbl with
  | nil => rfl
  | cons u rest ih =>
    by_cases hu : u.uid = uid
    · have : u.uid ≠ v := by rw [hu]; exact fun he => h he.symm
      rw [creditExisting, if_pos hu, cpuOf_cons, cpuOf_cons, if_neg this, if_neg this]
    · rw [creditExisting, if_neg hu, cpuOf_cons, cpuOf_cons, ih]

theorem cpuOf_creditExisting_self (tbl : List UserEntry) (uid : Nat) (ms : Int)
    (h : (tbl.any fun u => u.uid == uid) = true) :
    cpuOf (creditExisting tbl uid ms) uid = cpuOf tbl uid + ms := by
  induction tbl with
  | nil => simp at h
  | cons u rest ih =>
    by_cases hu : u.uid = uid
    · rw [creditExisting, if_pos hu, cpuOf_cons, cpuOf_cons, if_pos hu, if_pos hu]
    · have h2 : (rest.any fun u => u.uid == uid) = true := by
        simpa [List.any_cons, hu] using h
      rw [creditExisting, if_neg hu, cpuOf_cons, cpuOf_cons, if_neg hu, if_neg hu, ih h2]

theorem cpuOf_credit_ne (resolve : Nat → String) (tbl : List UserEntry) (uid v : Nat)
    (ms : Int) (h : v ≠ uid) : cpuOf (credit resolve tbl uid ms) v = cpuOf tbl v := by
  unfold credit
  split
  · exact cpuOf_creditExisting_ne tbl uid v ms h
  · split
    · rfl
    · exact cpuOf_append_one_ne tbl _ v (fun he => h he.symm)

theorem cpuOf_credit_self (resolve : Nat → String) (tbl : List UserEntry) (uid : Nat)
    (ms : Int) (hroom : tbl.length < MAX_USERS) :
    cpuOf (credit resolve tbl uid ms) uid = cpuOf tbl uid + ms := by
  unfold credit
  by_cases hany : (tbl.any fun u => u.uid == uid) = true
  · rw [if_pos hany]
    exact cpuOf_creditExisting_self tbl uid ms hany
  · have hany' : (tbl.any fun u => u.uid == uid) = false := by
      revert hany; cases tbl.any fun u => u.uid == uid <;> simp
    rw [if_neg (by rw [hany']; exact Bool.false_ne_true), if_neg (by omega)]
    rw [cpuOf_append_one_self tbl ⟨uid, ms, resolve uid⟩ hany',
        cpuOf_eq_zero_of_absent tbl uid hany']
    simp

theorem cpuOf_credit_le (resolve : Nat → String) (tbl : List UserEntry) (uid v : Nat)
    (ms : Int) (hms : 0 ≤ ms) : cpuOf tbl v ≤ cpuOf (credit resolve tbl uid ms) v := by
  by_cases hv : v = uid
  · subst hv
    unfold credit
    by_cases hany : (tbl.any fun u => u.uid == v) = true
    · rw [if_pos hany, cpuOf_creditExisting_self tbl v ms hany]; omega
    · have hany' : (tbl.any fun u => u.uid == v) = false := by
        revert hany; cases tbl.any fun u => u.uid == v <;> simp
      rw [if_neg (by rw [hany']; exact Bool.false_ne_true)]
      by_cases hroom : MAX_USERS ≤ tbl.length
      · rw [if_pos hroom]
      · rw [if_neg hroom,
            cpuOf_append_one_self tbl ⟨v, ms, resolve v⟩ hany',
            cpuOf_eq_zero_of_absent tbl v hany']
        simpa using hms
  · rw [cpuOf_credit_ne resolve tbl uid v ms hv]

/-! ### Reduction lemmas for `step` -/

theorem step_hz (resolve : Nat → String) (b : Bool) (st : MonState) (e : ProcObs) :
    (step resolve b st e).hz = st.hz := by
  cases h : parsePidLoop e.dname 0 with
  | none => simp only [step, h]
  | some pid =>
    simp only [step, h]
    split_ifs <;> rfl

theorem step_known_eq (resolve : Nat → String) (st : MonState) (e : ProcObs) (pid : Nat)
    (hp : parsePidLoop e.dname 0 = some pid) (h1 : pid ≠ 0) (h2 : pid < PID_MAX)
    (hj : 0 ≤ e.jiffies) (hu : e.uid ≠ UID_ERR)
    (hact : (st.pid_slots pid).active = true) (hsame : (st.pid_slots pid).uid = e.uid) :
    step resolve false st e =
      { st with
        user_table :=
          if 0 < (if e.jiffies - (st.pid_slots pid).prev_jiffies < 0 then (0 : Int)
                  else e.jiffies - (st.pid_slots pid).prev_jiffies) then
            credit resolve st.user_table e.uid
              ((if e.jiffies - (st.pid_slots pid).prev_jiffies < 0 then (0 : Int)
                else e.jiffies - (st.pid_slots pid).prev_jiffies) * 1000 / st.hz)
          else st.user_table,
        pid_slots := updSlot st.pid_slots pid ⟨true, (st.pid_slots pid).uid, e.jiffies⟩ } := by
  simp only [step, hp]
  rw [if_neg (by omega), if_neg (by omega), if_neg hu,
      if_neg (by rw [hact, hsame]; simp), if_pos trivial]

theorem step_new_eq (resolve : Nat → String) (st : MonState) (e : ProcObs) (pid : Nat)
    (hp : parsePidLoop e.dname 0 = some pid) (h1 : pid ≠ 0) (h2 : pid < PID_MAX)
    (hj : 0 ≤ e.jiffies) (hu : e.uid ≠ UID_ERR)
    (hnew : (st.pid_slots pid).active = false ∨ (st.pid_slots pid).uid ≠ e.uid) :
    step resolve false st e =
      { st with
        user_table :=
          if 0 < e.jiffies * 1000 / st.hz then
            credit resolve st.user_table e.uid (e.jiffies * 1000 / st.hz)
          else st.user_table,
        pid_slots := updSlot st.pid_slots pid ⟨true, e.uid, e.jiffies⟩ } := by
  simp only [step, hp]
  rw [if_neg (by omega), if_neg (by omega), if_neg hu, if_pos hnew, if_neg (by simp)]

theorem step_base_new_eq (resolve : Nat → String) (st : MonState) (e : ProcObs)
    (pid : Nat) (hp : parsePidLoop e.dname 0 = some pid) (h1 : pid ≠ 0)
    (h2 : pid < PID_MAX) (hj : 0 ≤ e.jiffies) (hu : e.uid ≠ UID_ERR)
    (hnew : (st.pid_slots pid).active = false ∨ (st.pid_slots pid).uid ≠ e.uid) :
    step resolve true st e =
      { st with pid_slots := updSlot st.pid_slots pid ⟨true, e.uid, e.jiffies⟩ } := by
  simp only [step, hp]
  rw [if_neg (by omega), if_neg (by omega), if_neg hu, if_pos hnew, if_pos trivial]

/-! ### Monotonicity -/

theorem ediv_add_ediv_le (d : Int) (hd : 0 < d) (a b : Int) :
    a / d + b / d ≤ (a + b) / d := by
  rw [Int.le_ediv_iff_mul_le hd]
  have ha := Int.ediv_add_emod a d
  have hb := Int.ediv_add_emod b d
  have ha2 : 0 ≤ a % d := Int.emod_nonneg a (by omega)
  have hb2 : 0 ≤ b % d := Int.emod_nonneg b (by omega)
  nlinarith

theorem step_cpuOf_le (resolve : Nat → String) (b : Bool) (st : MonState) (e : ProcObs)
    (hhz : 0 < st.hz) (v : Nat) :
    cpuOf st.user_table v ≤ cpuOf (step resolve b st e).user_table v := by
  cases h : parsePidLoop e.dname 0 with
  | none => simp only [step, h]; exact le_refl _
  | some pid =>
    simp only [step, h]
    split_ifs <;>
      first
      | exact le_refl _
      | exact cpuOf_credit_le resolve st.user_table e.uid v _ (le_of_lt (by assumption))
      | exact cpuOf_credit_le resolve st.user_table e.uid v _
          (Int.ediv_nonneg (by omega) (by omega))

theorem do_sample_cpuOf_le (resolve : Nat → String) (b : Bool) (entries : List ProcObs) :
    ∀ st : MonState, 0 < st.hz → ∀ v : Nat,
      cpuOf st.user_table v ≤ cpuOf (do_sample resolve b entries st).user_table v := by
  induction entries with
  | nil => intro st _ v; exact le_refl _
  | cons e rest ih =>
    intro st hhz v
    have h2 : 0 < (step resolve b st e).hz := by rw [step_hz]; exact hhz
    exact le_trans (step_cpuOf_le resolve b st e hhz v)
      (ih (step resolve b st e) h2 v)

/-! ### Single-process runs -/

/-- Shape of the user table during a run in which only `uid` is ever
credited: either still empty, or exactly one entry holding the running
total `S`. -/
def singleTable (resolve : Nat → String) (uid : Nat) (S : Int)
    (tbl : List UserEntry) : Prop :=
  (tbl = [] ∧ S = 0) ∨ tbl = [⟨uid, S, resolve uid⟩]

theorem singleTable_cpuOf (resolve : Nat → String) (uid : Nat) (S : Int)
    (tbl : List UserEntry) (h : singleTable resolve uid S tbl) : cpuOf tbl uid = S := by
  rcases h with ⟨h1, h2⟩ | h1
  · rw [h1, h2]; rfl
  · rw [h1, cpuOf_cons, if_pos rfl]

theorem singleTable_credit (resolve : Nat → String) (uid : Nat) (S ms : Int)
    (tbl : List UserEntry) (h : singleTable resolve uid S tbl) :
    singleTable resolve uid (S + ms) (credit resolve tbl uid ms) := by
  rcases h with ⟨h1, h2⟩ | h1
  · subst h1; subst h2
    right
    simp [credit, MAX_USERS]
  · subst h1
    right
    simp [credit, creditExisting]

theorem run_single (resolve : Nat → String) (name : List Char) (pid uid : Nat)
    (hz : Int) (hp : parsePidLoop name 0 = some pid) (h1 : pid ≠ 0)
    (h2 : pid < PID_MAX) (hu : uid ≠ UID_ERR) :
    ∀ (cs : List Int) (st : MonState) (c0 S : Int), st.hz = hz →
      st.pid_slots pid = ⟨true, uid, c0⟩ →
      singleTable resolve uid S st.user_table → (∀ c ∈ cs, 0 ≤ c) →
      cpuOf (sampleTicks resolve (singleTicks name uid cs) st).user_table uid
        = S + deltaSum hz c0 cs := by
  intro cs
  induction cs with
  | nil =>
    intro st c0 S hhz hslot htbl _
    simpa [sampleTicks, singleTicks, deltaSum]
      using singleTable_cpuOf resolve uid S st.user_table htbl
  | cons c rest ih =>
    intro st c0 S hhz hslot htbl hcs
    have hc : (0 : Int) ≤ c := hcs c (by simp)
    have hstep := step_known_eq resolve st (obs1 name c uid) pid hp h1 h2 hc hu
      (by rw [hslot]) (by rw [hslot]; rfl)
    rw [hslot] at hstep
    simp only [obs1] at hstep
    have hone : sampleTicks resolve (singleTicks name uid (c :: rest)) st
        = sampleTicks resolve (singleTicks name uid rest)
            (step resolve false st (obs1 name c uid)) := rfl
    rw [hone]
    simp only [obs1]
    rw [hstep]
    have hnext := ih { st with
        user_table :=
          if 0 < (if c - c0 < 0 then (0 : Int)
                  else c - c0) then
            credit resolve st.user_table uid
              ((if c - c0 < 0 then (0 : Int) else c - c0) * 1000 / st.hz)
          else st.user_table,
        pid_slots := updSlot st.pid_slots pid ⟨true, uid, c⟩ }
      c (S + tickMs hz c0 c) hhz (by simp [updSlot])
      (by
        by_cases hpos : 0 < (if c - c0 < 0 then (0 : Int) else c - c0)
        · simp only [if_pos hpos]
          have : tickMs hz c0 c
              = (if c - c0 < 0 then (0 : Int) else c - c0) * 1000 / hz := by
            unfold tickMs
            rw [if_pos hpos]
          rw [this, ← hhz]
          exact singleTable_credit resolve uid S _ st.user_table htbl
        · simp only [if_neg hpos]
          have : tickMs hz c0 c = 0 := by
            unfold tickMs
            rw [if_neg hpos]
          rw [this, add_zero]
          exact htbl)
      (fun x hx => hcs x (by simp [hx]))
    rw [hnext]
    show S + tickMs hz c0 c + deltaSum hz c rest = S + deltaSum hz c0 (c :: rest)
    rw [deltaSum, add_assoc]

/-! ### Arithmetic facts about `deltaSum` -/

theorem tickMs_of_le (hz prev c : Int) (h : prev ≤ c) :
    tickMs hz prev c = (c - prev) * 1000 / hz := by
  simp only [tickMs]
  rw [if_neg (show ¬ c - prev < 0 by omega)]
  by_cases hpos : 0 < c - prev
  · rw [if_pos hpos]
  · have hz0 : c - prev = 0 := by omega
    rw [if_neg hpos, hz0]
    simp

theorem deltaSum_le_telescope (hz : Int) (hhz : 0 < hz) :
    ∀ (cs : List Int) (c0 : Int), List.Chain' (· ≤ ·) (c0 :: cs) →
      deltaSum hz c0 cs ≤ (cs.getLastD c0 - c0) * 1000 / hz := by
  intro cs
  induction cs with
  | nil =>
    intro c0 _
    simp [deltaSum]
  | cons c1 rest ih =>
    intro c0 hch
    rw [List.chain'_cons] at hch
    obtain ⟨h01, hch2⟩ := hch
    have hih := ih c1 hch2
    rw [List.getLastD_cons]
    have hsum : deltaSum hz c0 (c1 :: rest) = tickMs hz c0 c1 + deltaSum hz c1 rest := rfl
    rw [hsum, tickMs_of_le hz c0 c1 h01]
    have hle := ediv_add_ediv_le hz hhz ((c1 - c0) * 1000) ((rest.getLastD c1 - c1) * 1000)
    have heq : (c1 - c0) * 1000 + (rest.getLastD c1 - c1) * 1000
        = (rest.getLastD c1 - c0) * 1000 := by ring
    rw [heq] at hle
    omega

theorem deltaSum_const (hz c : Int) (n : Nat) :
    deltaSum hz c (List.replicate n c) = 0 := by
  induction n with
  | zero => rfl
  | succ k ih =>
    rw [List.replicate_succ]
    have : deltaSum hz c (c :: List.replicate k c)
        = tickMs hz c c + deltaSum hz c (List.replicate k c) := rfl
    rw [this, ih, tickMs_of_le hz c c (le_refl c)]
    simp

/-! ### Report lemmas -/

instance : IsTotal UserEntry cpuDescOrder :=
  ⟨fun a b => le_total b.cpu_ms a.cpu_ms⟩

instance : IsTrans UserEntry cpuDescOrder :=
  ⟨fun _ _ _ hab hbc => le_trans hbc hab⟩

theorem emitRows_ranks (tbl : List UserEntry) : ∀ k : Nat,
    (emitRows k tbl).map (fun r => r.1) = List.range' k (emitRows k tbl).length := by
  induction tbl with
  | nil => intro k; rfl
  | cons u rest ih =>
    intro k
    by_cases h : u.cpu_ms ≤ 0
    · rw [emitRows, if_pos h]
      exact ih k
    · rw [emitRows, if_neg h]
      rw [List.map_cons, ih (k + 1), List.length_cons, List.range'_succ]

theorem emitRows_rows (tbl : List UserEntry) : ∀ k : Nat,
    (emitRows k tbl).map (fun r => (r.2.1, r.2.2))
      = (tbl.filter fun u => decide (0 < u.cpu_ms)).map fun u => (u.name, u.cpu_ms) := by
  induction tbl with
  | nil => intro k; rfl
  | cons u rest ih =>
    intro k
    by_cases h : u.cpu_ms ≤ 0
    · rw [emitRows, if_pos h, List.filter_cons,
          if_neg (by simp; omega)]
      exact ih k
    · rw [emitRows, if_neg h, List.filter_cons,
          if_pos (by simp; omega)]
      rw [List.map_cons, List.map_cons, ih (k + 1)]

theorem emitRows_mem (tbl : List UserEntry) : ∀ (k : Nat) (r : Nat × String × Int),
    r ∈ emitRows k tbl → ∃ u ∈ tbl, r.2.2 = u.cpu_ms := by
  induction tbl with
  | nil => intro k r hr; simp [emitRows] at hr
  | cons u rest ih =>
    intro k r hr
    by_cases h : u.cpu_ms ≤ 0
    · rw [emitRows, if_pos h] at hr
      obtain ⟨v, hv, he⟩ := ih k r hr
      exact ⟨v, List.mem_cons_of_mem u hv, he⟩
    · rw [emitRows, if_neg h] at hr
      rcases List.mem_cons.mp hr with he | hr2
      · exact ⟨u, List.mem_cons_self u rest, by rw [he]⟩
      · obtain ⟨v, hv, he⟩ := ih (k + 1) r hr2
        exact ⟨v, List.mem_cons_of_mem u hv, he⟩

theorem emitRows_pairwise (tbl : List UserEntry) (h : List.Pairwise cpuDescOrder tbl) :
    ∀ k : Nat, (emitRows k tbl).Pairwise fun r s => s.2.2 ≤ r.2.2 := by
  induction tbl with
  | nil => intro k; exact List.Pairwise.nil
  | cons u rest ih =>
    rw [List.pairwise_cons] at h
    intro k
    by_cases hc : u.cpu_ms ≤ 0
    · rw [emitRows, if_pos hc]
      exact ih h.2 k
    · rw [emitRows, if_neg hc]
      rw [List.pairwise_cons]
      constructor
      · intro r hr
        obtain ⟨v, hv, he⟩ := emitRows_mem rest (k + 1) r hr
        rw [he]
        exact h.1 v hv
      · exact ih h.2 (k + 1)

theorem sortDesc_sorted (tbl : List UserEntry) :
    List.Pairwise cpuDescOrder (sortDesc tbl) :=
  List.sorted_insertionSort cpuDescOrder tbl

/-! ### Lemmas about `atoi` -/

theorem digit_not_space (c : Char) (h : c.isDigit = true) : isSpaceChar c = false := by
  unfold isSpaceChar
  rw [decide_eq_false_iff_not]
  rintro (rfl | rfl | rfl | rfl | rfl | rfl) <;> exact absurd h (by decide)

theorem digit_ne_minus (c : Char) (h : c.isDigit = true) : c ≠ '-' := by
  rintro rfl; exact absurd h (by decide)

theorem digit_ne_plus (c : Char) (h : c.isDigit = true) : c ≠ '+' := by
  rintro rfl; exact absurd h (by decide)

theorem atoi_all_digits (l : List Char) (h : l.all Char.isDigit = true) :
    atoi l = digitsVal l 0 := by
  cases l with
  | nil => rfl
  | cons c rest =>
    have hc : c.isDigit = true := by
      rw [List.all_cons, Bool.and_eq_true] at h
      exact h.1
    have hs : skipSpaces (c :: rest) = c :: rest := by
      rw [skipSpaces, if_neg (by rw [digit_not_space c hc]; exact Bool.false_ne_true)]
    simp only [atoi, hs, if_neg (digit_ne_minus c hc), if_neg (digit_ne_plus c hc)]

theorem emitRows_pos (tbl : List UserEntry) : ∀ (k : Nat) (r : Nat × String × Int),
    r ∈ emitRows k tbl → 0 < r.2.2 := by
  induction tbl with
  | nil => intro k r hr; simp [emitRows] at hr
  | cons u rest ih =>
    intro k r hr
    by_cases h : u.cpu_ms ≤ 0
    · rw [emitRows, if_pos h] at hr
      exact ih k r hr
    · rw [emitRows, if_neg h] at hr
      rcases List.mem_cons.mp hr with he | hr2
      · rw [he]
        show 0 < u.cpu_ms
        omega
      · exact ih (k + 1) r hr2

/-! ## The claims -/

/-- Claim C1, amended.  For a single process alive across the baseline and
all ticks with the same owner and monotone counters `c0 ≤ c1 ≤ … ≤ cN`, the
total attributed to its owner is the SUM of the per-tick conversions
`(ci - c(i-1)) * 1000 / hz`; that sum is at most — but, because integer
division does not telescope, not always equal to — the single telescoped
conversion `(cN - c0) * 1000 / hz`. -/
theorem c1_attribution_sum (resolve : Nat → String) (name : List Char)
    (pid uid : Nat) (hz c0 : Int) (cs : List Int)
    (hp : parsePidLoop name 0 = some pid) (h1 : pid ≠ 0) (h2 : pid < PID_MAX)
    (hu : uid ≠ UID_ERR) (hhz : 0 < hz) (hc0 : 0 ≤ c0)
    (hchain : List.Chain' (· ≤ ·) (c0 :: cs)) :
    cpuOf (monitorRun resolve hz [obs1 name c0 uid]
        (singleTicks name uid cs)).user_table uid = deltaSum hz c0 cs
    ∧ deltaSum hz c0 cs ≤ (cs.getLastD c0 - c0) * 1000 / hz := by
  constructor
  · have hbase := step_base_new_eq resolve (initState hz) (obs1 name c0 uid) pid
      hp h1 h2 hc0 hu (Or.inl rfl)
    have hd : do_sample resolve true [obs1 name c0 uid] (initState hz)
        = step resolve true (initState hz) (obs1 name c0 uid) := rfl
    rw [monitorRun, hd, hbase]
    have hall : ∀ c ∈ cs, (0 : Int) ≤ c := by
      have hpw : List.Pairwise (· ≤ ·) (c0 :: cs) := List.chain'_iff_pairwise.mp hchain
      rw [List.pairwise_cons] at hpw
      intro c hcmem
      exact le_trans hc0 (hpw.1 c hcmem)
    have hrun := run_single resolve name pid uid hz hp h1 h2 hu cs
      ⟨updSlot (fun _ => initSlot) pid ⟨true, uid, c0⟩, [], hz⟩ c0 0 rfl
      (by simp [updSlot]) (Or.inl ⟨rfl, rfl⟩) hall
    rw [zero_add] at hrun
    exact hrun
  · exact deltaSum_le_telescope hz hhz cs c0 hchain

/-- Claim C1, counterexample to the claim as stated: with
`ticksPerSecond = 3`, baseline counter 0 and tick counters 2 then 4, the
code attributes `666 + 666 = 1332` ms, while the telescoped conversion
`(4 - 0) * 1000 / 3` is `1333`. -/
theorem c1_counterexample :
    cpuOf (monitorRun (fun _ => "u") 3 [obs1 ['4', '2'] 0 7]
        (singleTicks ['4', '2'] 7 [2, 4])).user_table 7 = 1332
    ∧ ((4 : Int) - 0) * 1000 / 3 = 1333
    ∧ (1332 : Int) ≠ 1333 :=
  ⟨by decide, by decide, by decide⟩

/-- Claim C1, witness for the amended theorem at a concrete input. -/
theorem c1_witness :
    cpuOf (monitorRun (fun _ => "usr") 100 [obs1 ['4', '2'] 0 7]
        (singleTicks ['4', '2'] 7 [5])).user_table 7 = deltaSum 100 0 [5]
    ∧ deltaSum 100 0 [5] ≤ (([5] : List Int).getLastD 0 - 0) * 1000 / 100 :=
  c1_attribution_sum (fun _ => "usr") ['4', '2'] 42 7 100 0 [5] rfl (by decide)
    (by decide) (by decide) (by decide) (by decide)
    (by norm_num [List.chain'_cons])

/-- Claim C2.  PID reuse with a different owner `B` and a smaller counter
`c1 < c0`: the tick attributes `c1 * 1000 / hz` to `B`, leaves `A`'s
accumulator untouched (in particular adds nothing negative), and overwrites
the slot with owner `B` and `lastCpuTicks = c1`.  (Requires the user table
not to be at its documented capacity, per the spec's overflow policy.) -/
theorem c2_pid_reuse (resolve : Nat → String) (st : MonState) (name : List Char)
    (pid A B : Nat) (c0 c1 : Int)
    (hp : parsePidLoop name 0 = some pid) (h1 : pid ≠ 0) (h2 : pid < PID_MAX)
    (hB : B ≠ UID_ERR) (hAB : A ≠ B) (hc1 : 0 ≤ c1) (hlt : c1 < c0)
    (hslot : st.pid_slots pid = ⟨true, A, c0⟩) (hhz : 0 < st.hz)
    (hroom : st.user_table.length < MAX_USERS) :
    cpuOf (step resolve false st (obs1 name c1 B)).user_table B
        = cpuOf st.user_table B + c1 * 1000 / st.hz
    ∧ cpuOf (step resolve false st (obs1 name c1 B)).user_table A
        = cpuOf st.user_table A
    ∧ (step resolve false st (obs1 name c1 B)).pid_slots pid = ⟨true, B, c1⟩ := by
  have hnew : (st.pid_slots pid).active = false
      ∨ (st.pid_slots pid).uid ≠ (obs1 name c1 B).uid := by
    right
    rw [hslot]
    exact hAB
  have hstep := step_new_eq resolve st (obs1 name c1 B) pid hp h1 h2 hc1 hB hnew
  simp only [obs1] at hstep
  simp only [obs1]
  by_cases hpos : 0 < c1 * 1000 / st.hz
  · rw [if_pos hpos] at hstep
    rw [hstep]
    exact ⟨cpuOf_credit_self resolve st.user_table B _ hroom,
      cpuOf_credit_ne resolve st.user_table B A _ hAB, by simp [updSlot]⟩
  · rw [if_neg hpos] at hstep
    rw [hstep]
    have hnn : 0 ≤ c1 * 1000 / st.hz := Int.ediv_nonneg (by omega) (by omega)
    have hms0 : c1 * 1000 / st.hz = 0 := by omega
    refine ⟨?_, rfl, by simp [updSlot]⟩
    show cpuOf st.user_table B = cpuOf st.user_table B + c1 * 1000 / st.hz
    rw [hms0, add_zero]

/-- Claim C2, witness at a concrete input. -/
theorem c2_witness :
    cpuOf (step (fun _ => "u") false
        ⟨updSlot (fun _ => initSlot) 42 ⟨true, 3, 50⟩, [⟨3, 7, "a"⟩], 100⟩
        (obs1 ['4', '2'] 30 8)).user_table 8
      = cpuOf ([⟨3, 7, "a"⟩] : List UserEntry) 8 + 30 * 1000 / 100
    ∧ cpuOf (step (fun _ => "u") false
        ⟨updSlot (fun _ => initSlot) 42 ⟨true, 3, 50⟩, [⟨3, 7, "a"⟩], 100⟩
        (obs1 ['4', '2'] 30 8)).user_table 3
      = cpuOf ([⟨3, 7, "a"⟩] : List UserEntry) 3
    ∧ (step (fun _ => "u") false
        ⟨updSlot (fun _ => initSlot) 42 ⟨true, 3, 50⟩, [⟨3, 7, "a"⟩], 100⟩
        (obs1 ['4', '2'] 30 8)).pid_slots 42 = ⟨true, 8, 30⟩ :=
  c2_pid_reuse (fun _ => "u")
    ⟨updSlot (fun _ => initSlot) 42 ⟨true, 3, 50⟩, [⟨3, 7, "a"⟩], 100⟩
    ['4', '2'] 42 3 8 50 30 rfl (by decide) (by decide) (by decide) (by decide)
    (by decide) (by decide) (by decide) (by decide) (by decide)

/-- Claim C3.  A process present at baseline whose counter never changes
(same owner, same identifier) contributes exactly 0 milliseconds to its
owner, for any number `N` of sampling ticks. -/
theorem c3_baseline_exclusion (resolve : Nat → String) (name : List Char)
    (pid uid : Nat) (hz c0 : Int) (N : Nat)
    (hp : parsePidLoop name 0 = some pid) (h1 : pid ≠ 0) (h2 : pid < PID_MAX)
    (hu : uid ≠ UID_ERR) (hc0 : 0 ≤ c0) :
    cpuOf (monitorRun resolve hz [obs1 name c0 uid]
        (singleTicks name uid (List.replicate N c0))).user_table uid = 0 := by
  have hbase := step_base_new_eq resolve (initState hz) (obs1 name c0 uid) pid
    hp h1 h2 hc0 hu (Or.inl rfl)
  have hd : do_sample resolve true [obs1 name c0 uid] (initState hz)
      = step resolve true (initState hz) (obs1 name c0 uid) := rfl
  rw [monitorRun, hd, hbase]
  have hrun := run_single resolve name pid uid hz hp h1 h2 hu (List.replicate N c0)
    ⟨updSlot (fun _ => initSlot) pid ⟨true, uid, c0⟩, [], hz⟩ c0 0 rfl
    (by simp [updSlot]) (Or.inl ⟨rfl, rfl⟩)
    (fun c hcm => by rw [List.eq_of_mem_replicate hcm]; exact hc0)
  rw [deltaSum_const, add_zero] at hrun
  exact hrun

/-- Claim C3, witness at a concrete input. -/
theorem c3_witness :
    cpuOf (monitorRun (fun _ => "usr") 100 [obs1 ['4', '2'] 5 7]
        (singleTicks ['4', '2'] 7 (List.replicate 3 5))).user_table 7 = 0 :=
  c3_baseline_exclusion (fun _ => "usr") ['4', '2'] 42 7 100 5 3 rfl (by decide)
    (by decide) (by decide) (by decide)

/-- Claim C4.  Monotonicity: no sampling pass (baseline or not), over any
sequence of observed processes, counters and owners, ever decreases any
owner's accumulated milliseconds (`hz` is positive for the whole run, as
`main` guarantees via the fallback). -/
theorem c4_monotonicity (resolve : Nat → String) (b : Bool) (entries : List ProcObs)
    (st : MonState) (hhz : 0 < st.hz) (v : Nat) :
    cpuOf st.user_table v ≤ cpuOf (do_sample resolve b entries st).user_table v :=
  do_sample_cpuOf_le resolve b entries st hhz v

/-- Claim C4, witness at a concrete input. -/
theorem c4_witness :
    cpuOf (initState 100).user_table 7
      ≤ cpuOf (do_sample (fun _ => "u") false [obs1 ['4', '2'] 5 7]
          (initState 100)).user_table 7 :=
  c4_monotonicity (fun _ => "u") false [obs1 ['4', '2'] 5 7] (initState 100)
    (by decide) 7

/-- Claim C5, amended.  On a repeated baseline pass, a process with an
existing active record under the same owner is left entirely untouched:
nothing is attributed AND — contrary to the claim — `lastCpuTicks` is NOT
refreshed to the observed counter; the whole engine state is unchanged. -/
theorem c5_repeat_baseline (resolve : Nat → String) (st : MonState) (e : ProcObs)
    (pid : Nat) (hp : parsePidLoop e.dname 0 = some pid) (h1 : pid ≠ 0)
    (h2 : pid < PID_MAX) (hj : 0 ≤ e.jiffies) (hu : e.uid ≠ UID_ERR)
    (hact : (st.pid_slots pid).active = true)
    (hsame : (st.pid_slots pid).uid = e.uid) :
    step resolve true st e = st := by
  simp only [step, hp]
  rw [if_neg (by omega), if_neg (by omega), if_neg hu,
      if_neg (by rw [hact, hsame]; simp), if_neg (by simp)]

/-- Claim C5, counterexample to the claim as stated: a second baseline pass
observes counter 9 for a known same-owner process recorded at 5, and the
record keeps `prev_jiffies = 5` instead of being updated to 9. -/
theorem c5_counterexample :
    (step (fun _ => "u") true
        ⟨updSlot (fun _ => initSlot) 42 ⟨true, 7, 5⟩, [], 100⟩
        (obs1 ['4', '2'] 9 7)).pid_slots 42 = ⟨true, 7, 5⟩
    ∧ ((step (fun _ => "u") true
        ⟨updSlot (fun _ => initSlot) 42 ⟨true, 7, 5⟩, [], 100⟩
        (obs1 ['4', '2'] 9 7)).pid_slots 42).prev_jiffies ≠ 9 :=
  ⟨by decide, by decide⟩

/-- Claim C5, witness for the amended theorem at a concrete input. -/
theorem c5_witness :
    step (fun _ => "u") true
        ⟨updSlot (fun _ => initSlot) 42 ⟨true, 7, 5⟩, [], 100⟩
        (obs1 ['4', '2'] 9 7)
      = ⟨updSlot (fun _ => initSlot) 42 ⟨true, 7, 5⟩, [], 100⟩ :=
  c5_repeat_baseline (fun _ => "u")
    ⟨updSlot (fun _ => initSlot) 42 ⟨true, 7, 5⟩, [], 100⟩
    (obs1 ['4', '2'] 9 7) 42 rfl (by decide) (by decide) (by decide) (by decide)
    (by decide) (by decide)

/-- Claim C6.  On a non-baseline tick, a known same-owner process observed
with a counter smaller than `lastCpuTicks` attributes exactly zero (table
unchanged, never negative), and `lastCpuTicks` is still updated to the
observed counter. -/
theorem c6_negative_delta_guard (resolve : Nat → String) (st : MonState)
    (name : List Char) (pid uid : Nat) (c0 c1 : Int)
    (hp : parsePidLoop name 0 = some pid) (h1 : pid ≠ 0) (h2 : pid < PID_MAX)
    (hu : uid ≠ UID_ERR) (hc1 : 0 ≤ c1) (hlt : c1 < c0)
    (hslot : st.pid_slots pid = ⟨true, uid, c0⟩) :
    (step resolve false st (obs1 name c1 uid)).user_table = st.user_table
    ∧ (step resolve false st (obs1 name c1 uid)).pid_slots pid = ⟨true, uid, c1⟩ := by
  have hstep := step_known_eq resolve st (obs1 name c1 uid) pid hp h1 h2 hc1 hu
    (by rw [hslot]) (by rw [hslot]; rfl)
  rw [hslot] at hstep
  simp only [obs1] at hstep
  rw [if_pos (show c1 - c0 < 0 by omega)] at hstep
  rw [if_neg (show ¬ (0 : Int) < 0 by omega)] at hstep
  simp only [obs1]
  rw [hstep]
  exact ⟨rfl, by simp [updSlot]⟩

/-- Claim C6, witness at a concrete input. -/
theorem c6_witness :
    (step (fun _ => "u") false
        ⟨updSlot (fun _ => initSlot) 42 ⟨true, 7, 50⟩, [⟨7, 8, "a"⟩], 100⟩
        (obs1 ['4', '2'] 30 7)).user_table = [⟨7, 8, "a"⟩]
    ∧ (step (fun _ => "u") false
        ⟨updSlot (fun _ => initSlot) 42 ⟨true, 7, 50⟩, [⟨7, 8, "a"⟩], 100⟩
        (obs1 ['4', '2'] 30 7)).pid_slots 42 = ⟨true, 7, 30⟩ :=
  c6_negative_delta_guard (fun _ => "u")
    ⟨updSlot (fun _ => initSlot) 42 ⟨true, 7, 50⟩, [⟨7, 8, "a"⟩], 100⟩
    ['4', '2'] 42 7 50 30 rfl (by decide) (by decide) (by decide) (by decide)
    (by decide) (by decide)

/-- Claim C7.  The report on the spec's example accumulators lists exactly
`C` at rank 1 with 3200 and `A` at rank 2 with 1500, omitting `B`; and for
every table the emitted rows carry contiguous 1-based ranks, are exactly
the positive-`cpu_ms` entries of the descending-sorted table, are sorted
descending, and all have strictly positive milliseconds. -/
theorem c7_report_correctness :
    report [⟨1001, 1500, "A"⟩, ⟨1002, 0, "B"⟩, ⟨1003, 3200, "C"⟩]
        = [(1, "C", (3200 : Int)), (2, "A", (1500 : Int))]
    ∧ ∀ tbl : List UserEntry,
        ((report tbl).map fun r => r.1) = List.range' 1 (report tbl).length
        ∧ ((report tbl).map fun r => (r.2.1, r.2.2))
            = (((sortDesc tbl).filter fun u => decide (0 < u.cpu_ms)).map
                fun u => (u.name, u.cpu_ms))
        ∧ ((report tbl).Pairwise fun r s => s.2.2 ≤ r.2.2)
        ∧ ∀ r ∈ report tbl, 0 < r.2.2 :=
  ⟨by decide, fun tbl =>
    ⟨emitRows_ranks (sortDesc tbl) 1, emitRows_rows (sortDesc tbl) 1,
      emitRows_pairwise (sortDesc tbl) (sortDesc_sorted tbl) 1,
      emitRows_pos (sortDesc tbl) 1⟩⟩

/-- Claim C8, amended.  `main` rejects (non-zero exit, no sampling) exactly
when the argument list is not a single argument with positive `atoi` value;
every valid positive-integer literal is accepted, but so are some strings
that are NOT valid positive-integer literals (e.g. "12abc", whose `atoi`
value is 12), because `atoi` ignores trailing non-digit characters. -/
theorem c8_usage_check (prog s : String) (argv : List String) :
    (mainModel argv = MainOutcome.usageError
      ↔ ¬ ∃ p a, argv = [p, a] ∧ 0 < atoi a.data)
    ∧ (specValidPositiveInt s = true →
        mainModel [prog, s] = MainOutcome.run (atoi s.data)) := by
  constructor
  · match argv with
    | [] => simp [mainModel]
    | [x] => simp [mainModel]
    | x :: y :: z :: rest => simp [mainModel]
    | [x, a] =>
      by_cases h : atoi a.data ≤ 0
      · constructor
        · intro _
          rintro ⟨p, a2, heq, hpos⟩
          rw [List.cons.injEq, List.cons.injEq] at heq
          obtain ⟨-, ha, -⟩ := heq
          rw [← ha] at hpos
          omega
        · intro _
          simp only [mainModel]
          rw [if_pos h]
      · constructor
        · intro hme
          simp only [mainModel] at hme
          rw [if_neg h] at hme
          simp at hme
        · intro hno
          exact absurd ⟨x, a, rfl, by omega⟩ hno
  · intro hv
    simp only [specValidPositiveInt, Bool.and_eq_true, Bool.not_eq_true',
      decide_eq_true_eq] at hv
    obtain ⟨⟨-, hdig⟩, hpos⟩ := hv
    have ha := atoi_all_digits s.data hdig
    simp only [mainModel]
    rw [if_neg (by omega)]

/-- Claim C8, counterexample to the claim as stated: "12abc" is not a valid
positive-integer duration, yet the program accepts it (`atoi` parses 12)
and proceeds to sample instead of exiting with a usage error. -/
theorem c8_counterexample :
    mainModel ["monitor", "12abc"] = MainOutcome.run 12
    ∧ specValidPositiveInt "12abc" = false :=
  ⟨by decide, by decide⟩

/-- Claim C8, witness for the amended theorem at a concrete input. -/
theorem c8_witness :
    specValidPositiveInt "5" = true
    ∧ mainModel ["monitor", "5"] = MainOutcome.run (atoi "5".data) :=
  ⟨by decide, (c8_usage_check "monitor" "5" []).2 (by decide)⟩

/-- Claim C9.  A directory entry whose name is not all digits, or whose
parsed identifier is 0 or at least `PID_MAX`, is skipped entirely: the
engine state is unchanged; and no pass ever writes a `pid_slots` index
outside `[1, PID_MAX)`. -/
theorem c9_pid_filtering (resolve : Nat → String) (b : Bool) (st : MonState)
    (e : ProcObs) :
    ((parsePidLoop e.dname 0 = none
        ∨ ∃ pid, parsePidLoop e.dname 0 = some pid ∧ (pid = 0 ∨ PID_MAX ≤ pid)) →
      step resolve b st e = st)
    ∧ ∀ q : Nat, q = 0 ∨ PID_MAX ≤ q →
        (step resolve b st e).pid_slots q = st.pid_slots q := by
  constructor
  · rintro (hn | ⟨pid, hp, hbad⟩)
    · simp only [step, hn]
    · simp only [step, hp]
      rw [if_pos hbad]
  · intro q hq
    cases h : parsePidLoop e.dname 0 with
    | none => simp only [step, h]
    | some pid =>
      simp only [step, h]
      split_ifs <;>
        first
        | rfl
        | (show updSlot st.pid_slots pid _ q = st.pid_slots q
           simp only [updSlot]
           rw [if_neg (by omega)])

/-- Claim C9, witness at a concrete input. -/
theorem c9_witness :
    step (fun _ => "u") false (initState 100) ⟨['a'], 3, 7⟩ = initState 100
    ∧ (step (fun _ => "u") false (initState 100) ⟨['a'], 3, 7⟩).pid_slots 0
        = (initState 100).pid_slots 0 :=
  ⟨(c9_pid_filtering (fun _ => "u") false (initState 100) ⟨['a'], 3, 7⟩).1
      (Or.inl rfl),
    (c9_pid_filtering (fun _ => "u") false (initState 100) ⟨['a'], 3, 7⟩).2 0
      (Or.inl rfl)⟩

/-- Claim C10.  When an identifier is reused by a process with the SAME
owner and a smaller counter, the tick attributes zero for that identifier
(the clamped-delta path), not the new process's full counter: full
first-observation attribution happens only on an inactive record or an
owner change. -/
theorem c10_same_owner_reuse (resolve : Nat → String) (st : MonState)
    (name : List Char) (pid uid : Nat) (c0 c1 : Int)
    (hp : parsePidLoop name 0 = some pid) (h1 : pid ≠ 0) (h2 : pid < PID_MAX)
    (hu : uid ≠ UID_ERR) (hc1 : 0 ≤ c1) (hlt : c1 < c0)
    (hslot : st.pid_slots pid = ⟨true, uid, c0⟩) :
    cpuOf (step resolve false st (obs1 name c1 uid)).user_table uid
        = cpuOf st.user_table uid
    ∧ (0 < c1 * 1000 / st.hz →
        cpuOf (step resolve false st (obs1 name c1 uid)).user_table uid
          ≠ cpuOf st.user_table uid + c1 * 1000 / st.hz) := by
  have hstep := step_known_eq resolve st (obs1 name c1 uid) pid hp h1 h2 hc1 hu
    (by rw [hslot]) (by rw [hslot]; rfl)
  rw [hslot] at hstep
  simp only [obs1] at hstep
  rw [if_pos (show c1 - c0 < 0 by omega)] at hstep
  rw [if_neg (show ¬ (0 : Int) < 0 by omega)] at hstep
  simp only [obs1]
  rw [hstep]
  refine ⟨rfl, ?_⟩
  intro hpos
  show cpuOf st.user_table uid ≠ cpuOf st.user_table uid + c1 * 1000 / st.hz
  omega

/-- Claim C10, witness at a concrete input. -/
theorem c10_witness :
    cpuOf (step (fun _ => "u") false
        ⟨updSlot (fun _ => initSlot) 42 ⟨true, 7, 50⟩, [⟨7, 8, "a"⟩], 100⟩
        (obs1 ['4', '2'] 30 7)).user_table 7
      = cpuOf ([⟨7, 8, "a"⟩] : List UserEntry) 7
    ∧ (0 < (30 : Int) * 1000 / (100 : Int) →
        cpuOf (step (fun _ => "u") false
          ⟨updSlot (fun _ => initSlot) 42 ⟨true, 7, 50⟩, [⟨7, 8, "a"⟩], 100⟩
          (obs1 ['4', '2'] 30 7)).user_table 7
        ≠ cpuOf ([⟨7, 8, "a"⟩] : List UserEntry) 7 + 30 * 1000 / 100) :=
  c10_same_owner_reuse (fun _ => "u")
    ⟨updSlot (fun _ => initSlot) 42 ⟨true, 7, 50⟩, [⟨7, 8, "a"⟩], 100⟩
    ['4', '2'] 42 7 50 30 rfl (by decide) (by decide) (by decide) (by decide)
    (by decide) (by decide)

end Monitor
